import Mathlib

/-!
Verification development for the DomPDF field extractor (src/DomPDF.py).

The Python source normalizes a document's text, applies an ordered catalog of
16 regular-expression rules to it, classifies documents by a fixed marker
substring, and folds per-document results into a list of records.

All regular expressions in the catalog are built from string literals, the
character classes \w, \s, . (any char but newline) and \n, greedy and lazy
stars over a single character class, optional groups, and one or two capture
groups.  The engine below implements exactly these constructs with Python's
leftmost-search, backtracking-priority semantics (greedy stars try the longest
expansion first, lazy stars the shortest, `e?` tries `e` before skipping it),
and records capture groups; a group that did not participate in the match is
absent, mirroring Python's `None` group (whose `.strip()` would raise).  Python
peculiarities that cannot arise for the concrete inputs considered here
(non-ASCII word characters in \w, the \f and \v whitespace characters) are
approximated by `Char.isAlphanum`/`Char.isWhitespace`.

Fallible evaluation (an uncaught Python exception) is modelled by `Option`:
`none` means the Python code would raise.
-/

namespace DomPDF

/-- Character classes occurring in the catalog's regular expressions. -/
inductive Cls where
  | word
  | space
  | dot
  | nl
deriving DecidableEq

/-- Which characters a class accepts: \w, \s, `.` (no newline), \n. -/
def Cls.accepts : Cls → Char → Bool
  | .word, c => c.isAlphanum || c == '_'
  | .space, c => c.isWhitespace
  | .dot, c => c != '\n'
  | .nl, c => c == '\n'

/-- The fragment of regular expressions used by the catalog: literals, a
greedy or lazy star over a single character class, capture groups, optional
subexpressions and sequencing. -/
inductive RE where
  | lit (s : List Char)
  | star (cls : Cls) (lzy : Bool)
  | grp (n : Nat) (e : RE)
  | opt (e : RE)
  | seq (a b : RE)
deriving DecidableEq

/-- Capture-group environment: group index paired with the captured text.
The most recent participation of a group is the first entry with its index. -/
abbrev Caps := List (Nat × List Char)

/-- Length of the maximal run of class characters at the head of the input. -/
def runLen (cls : Cls) : List Char → Nat
  | [] => 0
  | c :: rest => if cls.accepts c then runLen cls rest + 1 else 0

/-- First-success choice between two backtracking alternatives. -/
def mOr (x y : Option Caps) : Option Caps :=
  match x with
  | some r => some r
  | none => y

/-- Try the continuation after consuming `i` characters, for each `i` in
`idxs` in order; the order of `idxs` encodes backtracking priority. -/
def tryIdxs (idxs : List Nat) (cs : List Char) (caps : Caps)
    (k : List Char → Caps → Option Caps) : Option Caps :=
  match idxs with
  | [] => none
  | i :: rest => mOr (k (cs.drop i) caps) (tryIdxs rest cs caps k)

/-- Candidate consumption counts for a star over a run of `m` class
characters: shortest first when lazy, longest first when greedy. -/
def starIdxs (lzy : Bool) (m : Nat) : List Nat :=
  if lzy then List.range (m + 1) else (List.range (m + 1)).reverse

/-- Backtracking matcher in continuation-passing style.  `matchRE e cs caps k`
attempts to match `e` at the start of `cs`, extending the capture
environment, and calls `k` with the rest of the input on each candidate
parse, in backtracking-priority order. -/
def matchRE : RE → List Char → Caps → (List Char → Caps → Option Caps) → Option Caps
  | .lit s, cs, caps, k => if s.isPrefixOf cs then k (cs.drop s.length) caps else none
  | .star cls lzy, cs, caps, k => tryIdxs (starIdxs lzy (runLen cls cs)) cs caps k
  | .grp n e, cs, caps, k =>
      matchRE e cs caps (fun cs' caps' =>
        k cs' ((n, cs.take (cs.length - cs'.length)) :: caps'))
  | .opt e, cs, caps, k => mOr (matchRE e cs caps k) (k cs caps)
  | .seq a b, cs, caps, k => matchRE a cs caps (fun cs' caps' => matchRE b cs' caps' k)

/-- `re.search` semantics: try to match at position 0, else advance one
character; the first (leftmost) position with a match wins, and within it the
backtracking-priority parse gives the capture groups. -/
def searchRE (e : RE) : List Char → Option Caps
  | [] =>
    match matchRE e [] [] (fun _ caps => some caps) with
    | some caps => some caps
    | none => none
  | c :: rest =>
    match matchRE e (c :: rest) [] (fun _ caps => some caps) with
    | some caps => some caps
    | none => searchRE e rest

/-- Split at the first occurrence of `m`: `some (before, after)` when `m`
occurs, scanning left to right. -/
def splitFirst (m : List Char) : List Char → Option (List Char × List Char)
  | [] => if m.isEmpty then some ([], []) else none
  | c :: rest =>
    if m.isPrefixOf (c :: rest) then some ([], (c :: rest).drop m.length)
    else (splitFirst m rest).map (fun p => (c :: p.1, p.2))

/-- Model of Python's `text.split(sep)[0]`: the part before the first
occurrence of `sep`, or the whole text if `sep` is absent. -/
def splitHead (m cs : List Char) : List Char :=
  match splitFirst m cs with
  | none => cs
  | some (a, _) => a

/-- Model of Python's `sub in text`: substring containment. -/
def containsL (m cs : List Char) : Bool :=
  (splitFirst m cs).isSome

theorem splitFirst_length {m : List Char} :
    ∀ {cs a b : List Char}, splitFirst m cs = some (a, b) →
      a.length + (m.length + b.length) = cs.length := by
  intro cs
  induction cs with
  | nil =>
    intro a b h
    simp only [splitFirst] at h
    split at h
    next hm =>
      cases h
      simp [List.isEmpty_iff.mp hm]
    next => simp at h
  | cons c rest ih =>
    intro a b h
    simp only [splitFirst] at h
    split at h
    next hp =>
      cases h
      have hpre : m <+: (c :: rest) := List.isPrefixOf_iff_prefix.mp hp
      obtain ⟨t, ht⟩ := hpre
      have hlen : m.length ≤ (c :: rest).length := by
        rw [← ht]; simp
      simp only [List.length_nil, List.length_drop]
      omega
    next =>
      rw [Option.map_eq_some'] at h
      obtain ⟨⟨a', b'⟩, hrec, heq⟩ := h
      cases heq
      have := ih hrec
      simp only [List.length_cons]
      omega

/-- Worker for `removeAll`, structurally recursive on a fuel bound so that it
evaluates by kernel reduction; the fuel never runs out when it starts at the
input's length (`removeAllF_irrel`). -/
def removeAllF (m : List Char) : Nat → List Char → List Char
  | 0, cs => cs
  | fuel + 1, cs =>
    match splitFirst m cs with
    | none => cs
    | some (a, b) => a ++ removeAllF m fuel b

/-- Model of Python's `text.replace(old, '')`: remove all non-overlapping
occurrences of `old`, scanning left to right.  `text.replace('', '')` is
`text`. -/
def removeAll (m cs : List Char) : List Char :=
  if m = [] then cs else removeAllF m cs.length cs

theorem removeAllF_of_none {m cs : List Char} (h : splitFirst m cs = none) :
    ∀ fuel, removeAllF m fuel cs = cs := by
  intro fuel
  cases fuel with
  | zero => rfl
  | succ f => simp [removeAllF, h]

theorem removeAllF_irrel {m : List Char} (hm : m ≠ []) :
    ∀ (f1 f2 : Nat) (cs : List Char), cs.length ≤ f1 → cs.length ≤ f2 →
      removeAllF m f1 cs = removeAllF m f2 cs := by
  intro f1
  induction f1 with
  | zero =>
    intro f2 cs h1 _
    have hnil : cs = [] := List.eq_nil_of_length_eq_zero (Nat.le_zero.mp h1)
    subst hnil
    have hsp : splitFirst m [] = none := by
      simp [splitFirst, List.isEmpty_iff, hm]
    rw [removeAllF_of_none hsp, removeAllF_of_none hsp]
  | succ f ih =>
    intro f2 cs h1 h2
    cases hsp : splitFirst m cs with
    | none => rw [removeAllF_of_none hsp, removeAllF_of_none hsp]
    | some p =>
      obtain ⟨a, b⟩ := p
      have hlen := splitFirst_length hsp
      have hml : 0 < m.length := by
        cases m with
        | nil => exact absurd rfl hm
        | cons x xs => simp
      cases f2 with
      | zero => omega
      | succ f2' =>
        simp only [removeAllF, hsp]
        rw [ih f2' b (by omega) (by omega)]

/-- Model of Python's `text.split(sep)`: the fragments between consecutive
occurrences of `sep`. -/
def splitAll (m cs : List Char) : List (List Char) :=
  if hm : m = [] then [cs]
  else
    match h : splitFirst m cs with
    | none => [cs]
    | some (a, b) => a :: splitAll m b
termination_by cs.length
decreasing_by
  have := splitFirst_length h
  have hml : 0 < m.length := by
    cases m with
    | nil => exact absurd rfl hm
    | cons x xs => simp
  omega

/-- Whitespace test used for Python's `str.strip()` and for the \s class. -/
def isWs (c : Char) : Bool := c.isWhitespace

/-- Model of Python's `str.strip()`: drop leading and trailing whitespace. -/
def trimL (l : List Char) : List Char :=
  ((l.dropWhile isWs).reverse.dropWhile isWs).reverse

/-- The sentinel value for a field whose pattern did not match. -/
def naChars : List Char := "N/A".data

/-! ## The rule catalog (DomPDF.py lines 49-66)

Each Python pattern is transcribed construct by construct.  `lit` is a regex
literal, `ows` is `\s*`, `wordGrpOpt` is `([\w]*)?`, `lazyAnyOpt n` is
`(.*?)?` as group `n`, `lineGrp n` is `([^\n]*)` as group `n`, `lineGrpOpt n`
is `([^\n]*)?`, and `nls` is `\n*`. -/

/-- A regex literal. -/
def lit (s : String) : RE := .lit s.data

/-- `\s*` (greedy). -/
def ows : RE := .star .space false

/-- `\n*` (greedy). -/
def nls : RE := .star .nl false

/-- `([\w]*)?` as capture group 1. -/
def wordGrpOpt : RE := .opt (.grp 1 (.star .word false))

/-- `(.*?)?` (lazy dot-star, optional) as capture group `n`. -/
def lazyAnyOpt (n : Nat) : RE := .opt (.grp n (.star .dot true))

/-- `([^\n]*)` as capture group `n` (same class as `.`). -/
def lineGrp (n : Nat) : RE := .grp n (.star .dot false)

/-- `([^\n]*)?` as capture group `n`. -/
def lineGrpOpt (n : Nat) : RE := .opt (lineGrp n)

/-- Sequence a list of regex pieces. -/
def seqs (l : List RE) : RE := l.foldr .seq (.lit [])

/-- A catalog entry: field name, pattern, and the pattern's number of capture
groups (what Python's `len(m.groups())` returns for it). -/
structure Rule where
  name : String
  pat : RE
  groups : Nat
deriving DecidableEq

/-- `'Cédula de Identificación fiscal': r'CÉDULA DE IDENTIFICACIÓN FISCAL \n([\w]*)?'` -/
def ruleCedula : Rule :=
  ⟨"Cédula de Identificación fiscal",
    seqs [lit "CÉDULA DE IDENTIFICACIÓN FISCAL \n", wordGrpOpt], 1⟩

/-- `'CURP': r'CURP:\n([\w]*)?'` -/
def ruleCURP : Rule := ⟨"CURP", seqs [lit "CURP:\n", wordGrpOpt], 1⟩

/-- `'RFC': r'RFC:\n([\w]*)?'` -/
def ruleRFC : Rule := ⟨"RFC", seqs [lit "RFC:\n", wordGrpOpt], 1⟩

/-- `'Nombre o Razón Social':
r'Registro\s*Federal\s*de\s*Contribuyentes\n([^\n]*)?\nNombre,\s*denominación\s*o\s*razón'` -/
def ruleRazonSocial : Rule :=
  ⟨"Nombre o Razón Social",
    seqs [lit "Registro", ows, lit "Federal", ows, lit "de", ows,
      lit "Contribuyentes\n", lineGrpOpt 1, lit "\nNombre,", ows,
      lit "denominación", ows, lit "o", ows, lit "razón"], 1⟩

/-- `'Código Postal': r'Código\s*Postal:\s*(.*?)?\nTipo\s*de\s*Vialidad:'` -/
def ruleCodigoPostal : Rule :=
  ⟨"Código Postal",
    seqs [lit "Código", ows, lit "Postal:", ows, lazyAnyOpt 1,
      lit "\nTipo", ows, lit "de", ows, lit "Vialidad:"], 1⟩

/-- `'Tipo Vialidad': r'Tipo\s*de\s*Vialidad:\s*(.*?)?\nNombre\s*de\s*Vialidad:'` -/
def ruleTipoVialidad : Rule :=
  ⟨"Tipo Vialidad",
    seqs [lit "Tipo", ows, lit "de", ows, lit "Vialidad:", ows, lazyAnyOpt 1,
      lit "\nNombre", ows, lit "de", ows, lit "Vialidad:"], 1⟩

/-- `'Nombre Vialidad': r'Nombre\s*de\s*Vialidad:\s*(.*?)?\s*Número\s*Exterior:'` -/
def ruleNombreVialidad : Rule :=
  ⟨"Nombre Vialidad",
    seqs [lit "Nombre", ows, lit "de", ows, lit "Vialidad:", ows, lazyAnyOpt 1,
      ows, lit "Número", ows, lit "Exterior:"], 1⟩

/-- `'Número Exterior': r'Número\s*Exterior:\s*([^\n]*)?'` -/
def ruleNumeroExterior : Rule :=
  ⟨"Número Exterior",
    seqs [lit "Número", ows, lit "Exterior:", ows, lineGrpOpt 1], 1⟩

/-- `'Número Interior': r'Número\s*Interior:\s*(.*?)?\n*Nombre'` -/
def ruleNumeroInterior : Rule :=
  ⟨"Número Interior",
    seqs [lit "Número", ows, lit "Interior:", ows, lazyAnyOpt 1, nls,
      lit "Nombre"], 1⟩

/-- `'Nombre Colonia': r'Nombre\s*de\s*la\s*Colonia:\s*([^\n]*)?'` -/
def ruleNombreColonia : Rule :=
  ⟨"Nombre Colonia",
    seqs [lit "Nombre", ows, lit "de", ows, lit "la", ows, lit "Colonia:",
      ows, lineGrpOpt 1], 1⟩

/-- `'Nombre Localidad': r'Nombre\s*de\s*la\s*Localidad:\s*(.*?)?\s*Nombre'` -/
def ruleNombreLocalidad : Rule :=
  ⟨"Nombre Localidad",
    seqs [lit "Nombre", ows, lit "de", ows, lit "la", ows, lit "Localidad:",
      ows, lazyAnyOpt 1, ows, lit "Nombre"], 1⟩

/-- `'Nombre Municipio o Demarcación Territorial':
r'\s*Territorial:\s*(.*?)?\n(.*?)?\s*Nombre\s*de\s*la\s*Entidad\s*Federativa:'` -/
def ruleMunicipio : Rule :=
  ⟨"Nombre Municipio o Demarcación Territorial",
    seqs [ows, lit "Territorial:", ows, lazyAnyOpt 1, lit "\n", lazyAnyOpt 2,
      ows, lit "Nombre", ows, lit "de", ows, lit "la", ows, lit "Entidad",
      ows, lit "Federativa:"], 2⟩

/-- `'Nombre Entidad Federativa':
r'Nombre\s*de\s*la\s*Entidad\s*Federativa:\s*(.*?)?\s*\n'` -/
def ruleEntidad : Rule :=
  ⟨"Nombre Entidad Federativa",
    seqs [lit "Nombre", ows, lit "de", ows, lit "la", ows, lit "Entidad",
      ows, lit "Federativa:", ows, lazyAnyOpt 1, ows, lit "\n"], 1⟩

/-- `'Entre Calle': r'Entre\s*Calle:\s*(.*?)?\n(.*?)?\s*Y\s*Calle:'` -/
def ruleEntreCalle : Rule :=
  ⟨"Entre Calle",
    seqs [lit "Entre", ows, lit "Calle:", ows, lazyAnyOpt 1, lit "\n",
      lazyAnyOpt 2, ows, lit "Y", ows, lit "Calle:"], 2⟩

/-- `'Y Calle': r'Y\s*Calle:\s*([^\n]*)?'` -/
def ruleYCalle : Rule :=
  ⟨"Y Calle", seqs [lit "Y", ows, lit "Calle:", ows, lineGrpOpt 1], 1⟩

/-- `'Fecha y lugar de emisión':
r'Lugar y Fecha de Emisión\n*([^\n]*)\n*([^\n]*)?'` -/
def ruleFecha : Rule :=
  ⟨"Fecha y lugar de emisión",
    seqs [lit "Lugar y Fecha de Emisión", nls, lineGrp 1, nls, lineGrpOpt 2], 2⟩

/-- The 15 catalog rules before the issuance-date rule, in source order. -/
def pre15 : List Rule :=
  [ruleCedula, ruleCURP, ruleRFC, ruleRazonSocial, ruleCodigoPostal,
   ruleTipoVialidad, ruleNombreVialidad, ruleNumeroExterior,
   ruleNumeroInterior, ruleNombreColonia, ruleNombreLocalidad,
   ruleMunicipio, ruleEntidad, ruleEntreCalle, ruleYCalle]

/-- The full ordered catalog (`patrones` insertion order). -/
def catalog : List Rule := pre15 ++ [ruleFecha]

/-- The catalog's field names in insertion order. -/
def catalogNames : List String := catalog.map (fun r => r.name)

/-! ## Normalization (DomPDF.py lines 41-47) -/

/-- `'Actividades Económicas:'` -/
def actMarker : List Char := "Actividades Económicas:".data

/-- The privacy-notice sentence of line 42. -/
def privMarker : List Char :=
  "Susdatospersonales sonincorporados yprotegidos enlossistemas delSAT,deconformidad conlosLineamientos deProtección deDatos".data

/-- `'Página  [2] de [2]'` -/
def footer2 : List Char := "Página  [2] de [2]".data

/-- `'Página  [2] de [3]'` -/
def footer3 : List Char := "Página  [2] de [3]".data

/-- `'Página  [2] de [4]'` -/
def footer4 : List Char := "Página  [2] de [4]".data

/-- `'Página  [2] de [5]'` -/
def footer5 : List Char := "Página  [2] de [5]".data

/-- `'Página  [2] de [6]'` -/
def footer6 : List Char := "Página  [2] de [6]".data

/-- The preprocessing of `extract_fields` (lines 41-47): two `split(...)[0]`
truncations followed by five `replace(..., '')` footer removals. -/
def normalize (cs : List Char) : List Char :=
  removeAll footer6 (removeAll footer5 (removeAll footer4 (removeAll footer3
    (removeAll footer2 (splitHead privMarker (splitHead actMarker cs))))))

/-! ## Field extraction (DomPDF.py lines 49-78) -/

/-- Line 72's value construction from a match: `group(1).strip()` for a
one-group pattern, `group(1).strip() + ' ' + group(2).strip()` for a
two-group pattern.  `none` models the `AttributeError` Python would raise on
`None.strip()` when a group did not participate in the match. -/
def mkValue (groups : Nat) (caps : Caps) : Option (List Char) :=
  if groups > 1 then
    match caps.lookup 1, caps.lookup 2 with
    | some g1, some g2 => some (trimL g1 ++ ' ' :: trimL g2)
    | _, _ => none
  else
    match caps.lookup 1 with
    | some g1 => some (trimL g1)
    | none => none

/-- The extraction loop of lines 68-76 over a list of rules, accumulating the
`resultado` dictionary as an insertion-ordered association list.  For the
issuance-date rule the freshly computed value has every occurrence of
`resultado["RFC"]` removed (line 74); `none` models a `KeyError` if `"RFC"`
were absent, or a crashed value construction. -/
def runRules : List Rule → List Char → List (String × List Char) →
    Option (List (String × List Char))
  | [], _, acc => some acc
  | r :: rest, cs, acc =>
    match searchRE r.pat cs with
    | none => runRules rest cs (acc ++ [(r.name, naChars)])
    | some caps =>
      match mkValue r.groups caps with
      | none => none
      | some v =>
        if r.name = "Fecha y lugar de emisión" then
          match acc.lookup "RFC" with
          | none => none
          | some rfc => runRules rest cs (acc ++ [(r.name, removeAll rfc v)])
        else runRules rest cs (acc ++ [(r.name, v)])

/-- `extract_fields` (lines 31-78): normalize the text, then run the catalog.
`none` models an uncaught exception. -/
def extract_fields (texto : String) : Option (List (String × List Char)) :=
  runRules catalog (normalize texto.data) []

/-- `is_fiscal` (lines 79-81): substring containment of the fixed marker in
the raw text. -/
def is_fiscal (texto : String) : Bool :=
  containsL "CONSTANCIA DE SITUACIÓN FISCAL".data texto.data

/-! ## Batch orchestration (DomPDF.py lines 145-185)

Only the loop's data flow is modelled: the external `get_text` collaborator
is represented by each file's extraction outcome (`none` when `fitz` would
raise), and GUI/Excel side effects are out of scope.  The loop has no
`try`/`except`, so a failing extraction propagates and aborts the batch,
modelled by a `none` overall result. -/

/-- A file of the selected folder: its name and the outcome `get_text` would
produce for it (`none` = the PDF library raises). -/
structure FileEntry where
  name : String
  content : Option String
deriving DecidableEq

/-- Line 169's candidate test: `f.lower().endswith(".pdf")`. -/
def isPdfName (s : String) : Bool :=
  ".pdf".data.isSuffixOf (s.data.map Char.toLower)

/-- Lines 169-170: the candidate files and their count (`total`). -/
def candidates (folder : List FileEntry) : List FileEntry :=
  folder.filter (fun f => isPdfName f.name)

/-- `total = len(archivos_pdf)` — the denominator of the progress fraction. -/
def candidateTotal (folder : List FileEntry) : Nat :=
  (candidates folder).length

/-- Lines 181-182: append the file name under key `'Archivo'`, then rebuild
the dict with `'Archivo'` first followed by the remaining keys in insertion
order. -/
def mkRecord (archivo : String) (fields : List (String × List Char)) :
    List (String × List Char) :=
  let r1 := fields ++ [("Archivo", archivo.data)]
  let ks := "Archivo" :: (r1.map Prod.fst).filter (fun k => !(k == "Archivo"))
  ks.filterMap (fun k => (r1.lookup k).map (fun v => (k, v)))

/-- The per-file loop of lines 176-185 over the candidate files: a failing
text extraction (or a crash inside `extract_fields`) propagates as an
uncaught exception, aborting the whole batch (`none`). -/
def processFiles : List FileEntry → List (List (String × List Char)) →
    Option (List (List (String × List Char)))
  | [], acc => some acc
  | f :: rest, acc =>
    match f.content with
    | none => none
    | some texto =>
      if is_fiscal texto then
        match extract_fields texto with
        | none => none
        | some fields => processFiles rest (acc ++ [mkRecord f.name fields])
      else processFiles rest acc

/-- `process_pdfs` (lines 145-185), restricted to the result collection it
builds: filter the folder to `.pdf` candidates and fold the loop. -/
def process_pdfs (folder : List FileEntry) :
    Option (List (List (String × List Char))) :=
  processFiles (candidates folder) []

/-! ## Spec-side formulation of normalization (for the refinement claim C4)

These definitions follow the specification's wording: truncation at the
*first occurrence* of a marker (unchanged when absent), then deletion of the
footer occurrences left to right. -/

/-- Index of the first occurrence of `m` in `cs` (`none` when absent):
smallest `i` such that `m` is a prefix of `cs.drop i`. -/
def firstIdx (m : List Char) : List Char → Option Nat
  | [] => if m.isEmpty then some 0 else none
  | c :: rest =>
    if m.isPrefixOf (c :: rest) then some 0
    else (firstIdx m rest).map (· + 1)

/-- Spec wording: truncate at the first occurrence of the marker, discarding
from the marker onward; if the marker is absent the text is unchanged. -/
def truncFirstSpec (m cs : List Char) : List Char :=
  match firstIdx m cs with
  | none => cs
  | some i => cs.take i

theorem firstIdx_pref {m : List Char} :
    ∀ {cs : List Char} {i : Nat}, firstIdx m cs = some i →
      m.isPrefixOf (cs.drop i) = true := by
  intro cs
  induction cs with
  | nil =>
    intro i h
    simp only [firstIdx] at h
    split at h
    next hm =>
      cases h
      simp [List.isEmpty_iff.mp hm, List.isPrefixOf]
    next => simp at h
  | cons c rest ih =>
    intro i h
    simp only [firstIdx] at h
    split at h
    next hp => cases h; simpa using hp
    next =>
      rw [Option.map_eq_some'] at h
      obtain ⟨j, hj, rfl⟩ := h
      simpa using ih hj

/-- Spec wording: delete the occurrences of `m` from left to right. -/
def removeSpec (m cs : List Char) : List Char :=
  if hm : m = [] then cs
  else
    match h : firstIdx m cs with
    | none => cs
    | some i => cs.take i ++ removeSpec m (cs.drop (i + m.length))
termination_by cs.length
decreasing_by
  have hpref := firstIdx_pref h
  have hpre : m <+: cs.drop i := List.isPrefixOf_iff_prefix.mp hpref
  obtain ⟨t, ht⟩ := hpre
  have h1 : m.length + t.length = cs.length - i := by
    rw [← List.length_drop, ← ht]; simp
  have hml : 0 < m.length := by
    cases m with
    | nil => exact absurd rfl hm
    | cons x xs => simp
  have h2 : i < cs.length := by
    by_contra hcon
    have : cs.drop i = [] := List.drop_eq_nil_of_le (by omega)
    rw [this] at ht
    have : m.length + t.length = 0 := by
      rw [← List.length_append, ht]; simp
    omega
  simp only [List.length_drop]
  omega

/-- Normalization as the specification words it: truncate at the section
header, truncate at the privacy notice, then delete the five footers. -/
def normalizeSpec (cs : List Char) : List Char :=
  removeSpec footer6 (removeSpec footer5 (removeSpec footer4 (removeSpec footer3
    (removeSpec footer2 (truncFirstSpec privMarker (truncFirstSpec actMarker cs))))))

/-- Per-rule result value, a function of the cleaned text and the rule's own
pattern only: `'N/A'` on no match, otherwise the (possibly crashing) value
construction of line 72. -/
def fieldValue (r : Rule) (cs : List Char) : Option (List Char) :=
  match searchRE r.pat cs with
  | none => some naChars
  | some caps => mkValue r.groups caps

/-- Total form of `fieldValue` (the default is never used; see
`fieldValue_isSome`). -/
def fieldVal (r : Rule) (cs : List Char) : List Char :=
  (fieldValue r cs).getD naChars

/-- The association list produced by the first 15 catalog rules. -/
def pre15Map (cs : List Char) : List (String × List Char) :=
  pre15.map (fun r => (r.name, fieldVal r cs))

/-- The value stored for the issuance-date field: the two-group value of its
match with every occurrence of the already-resolved RFC value removed, or
`'N/A'` when the pattern does not match. -/
def dateEntryVal (cs : List Char) : List Char :=
  match searchRE ruleFecha.pat cs with
  | none => naChars
  | some caps => removeAll (fieldVal ruleRFC cs) ((mkValue 2 caps).getD naChars)

/-! ## Engine lemmas

A continuation never branches on the capture environment it is passed, and
only ever extends it; from these two generic facts we derive that certain
syntactic shapes of pattern always bind their capture groups on success
(`Binds` below), which is what rules out Python's `None.strip()` crash. -/

/-- The continuation's failure does not depend on the capture environment. -/
def KIndep (k : List Char → Caps → Option Caps) : Prop :=
  ∀ cs a b, (k cs a = none) ↔ (k cs b = none)

/-- The continuation's result keeps every group index already present. -/
def KMono (k : List Char → Caps → Option Caps) : Prop :=
  ∀ cs a r, k cs a = some r → ∀ n, n ∈ a.map Prod.fst → n ∈ r.map Prod.fst

/-- Every success of the continuation records group `n`. -/
def KOut (n : Nat) (k : List Char → Caps → Option Caps) : Prop :=
  ∀ cs a r, k cs a = some r → n ∈ r.map Prod.fst

theorem mOr_eq_none {x y : Option Caps} : mOr x y = none ↔ x = none ∧ y = none := by
  cases x <;> simp [mOr]

theorem mOr_eq_some {x y : Option Caps} {r : Caps} (h : mOr x y = some r) :
    x = some r ∨ (x = none ∧ y = some r) := by
  cases x with
  | none => exact Or.inr ⟨rfl, h⟩
  | some v => exact Or.inl h

theorem tryIdxs_eq_none {idxs : List Nat} {cs : List Char} {caps : Caps}
    {k : List Char → Caps → Option Caps} :
    tryIdxs idxs cs caps k = none ↔ ∀ i ∈ idxs, k (cs.drop i) caps = none := by
  induction idxs with
  | nil => simp [tryIdxs]
  | cons i rest ih => simp [tryIdxs, mOr_eq_none, ih]

theorem tryIdxs_eq_some {idxs : List Nat} {cs : List Char} {caps : Caps}
    {k : List Char → Caps → Option Caps} {r : Caps}
    (h : tryIdxs idxs cs caps k = some r) :
    ∃ i ∈ idxs, k (cs.drop i) caps = some r := by
  induction idxs with
  | nil => simp [tryIdxs] at h
  | cons i rest ih =>
    rcases mOr_eq_some h with h1 | ⟨_, h2⟩
    · exact ⟨i, by simp, h1⟩
    · obtain ⟨j, hj, hk⟩ := ih h2
      exact ⟨j, by simp [hj], hk⟩

theorem zero_mem_starIdxs (lzy : Bool) (m : Nat) : 0 ∈ starIdxs lzy m := by
  cases lzy <;> simp [starIdxs]

theorem matchRE_none_indep :
    ∀ (e : RE) (k : List Char → Caps → Option Caps), KIndep k →
      ∀ (cs : List Char) (a b : Caps),
        (matchRE e cs a k = none ↔ matchRE e cs b k = none) := by
  intro e
  induction e with
  | lit s =>
    intro k hk cs a b
    simp only [matchRE]
    split
    · exact hk _ _ _
    · exact Iff.rfl
  | star cls lzy =>
    intro k hk cs a b
    simp only [matchRE, tryIdxs_eq_none]
    exact ⟨fun h i hi => (hk _ _ _).mp (h i hi), fun h i hi => (hk _ _ _).mpr (h i hi)⟩
  | grp n e ih =>
    intro k hk cs a b
    simp only [matchRE]
    exact ih _ (fun cs' x y => hk cs' _ _) cs a b
  | opt e ih =>
    intro k hk cs a b
    simp only [matchRE, mOr_eq_none]
    exact and_congr (ih k hk cs a b) (hk cs a b)
  | seq e1 e2 ih1 ih2 =>
    intro k hk cs a b
    simp only [matchRE]
    exact ih1 _ (fun cs' x y => ih2 k hk cs' x y) cs a b

theorem matchRE_keysMono :
    ∀ (e : RE) (k : List Char → Caps → Option Caps), KMono k →
      ∀ (cs : List Char) (caps r : Caps), matchRE e cs caps k = some r →
        ∀ n, n ∈ caps.map Prod.fst → n ∈ r.map Prod.fst := by
  intro e
  induction e with
  | lit s =>
    intro k hk cs caps r h
    simp only [matchRE] at h
    split at h
    · exact hk _ _ _ h
    · simp at h
  | star cls lzy =>
    intro k hk cs caps r h
    simp only [matchRE] at h
    obtain ⟨i, _, hki⟩ := tryIdxs_eq_some h
    exact hk _ _ _ hki
  | grp m e ih =>
    intro k hk cs caps r h
    simp only [matchRE] at h
    refine ih _ (fun cs' x r' h' n hn => hk _ _ _ h' n ?_) cs caps r h
    simp only [List.map_cons, List.mem_cons]
    exact Or.inr hn
  | opt e ih =>
    intro k hk cs caps r h
    simp only [matchRE] at h
    rcases mOr_eq_some h with h1 | ⟨_, h2⟩
    · exact ih k hk cs caps r h1
    · exact hk _ _ _ h2
  | seq e1 e2 ih1 ih2 =>
    intro k hk cs caps r h
    simp only [matchRE] at h
    exact ih1 _ (fun cs' x r' h' => ih2 k hk cs' x r' h') cs caps r h

theorem matchRE_out :
    ∀ (e : RE) (n : Nat) (k : List Char → Caps → Option Caps), KOut n k →
      ∀ (cs : List Char) (caps r : Caps), matchRE e cs caps k = some r →
        n ∈ r.map Prod.fst := by
  intro e
  induction e with
  | lit s =>
    intro n k hk cs caps r h
    simp only [matchRE] at h
    split at h
    · exact hk _ _ _ h
    · simp at h
  | star cls lzy =>
    intro n k hk cs caps r h
    simp only [matchRE] at h
    obtain ⟨i, _, hki⟩ := tryIdxs_eq_some h
    exact hk _ _ _ hki
  | grp m e ih =>
    intro n k hk cs caps r h
    simp only [matchRE] at h
    exact ih n _ (fun cs' x r' h' => hk _ _ _ h') cs caps r h
  | opt e ih =>
    intro n k hk cs caps r h
    simp only [matchRE] at h
    rcases mOr_eq_some h with h1 | ⟨_, h2⟩
    · exact ih n k hk cs caps r h1
    · exact hk _ _ _ h2
  | seq e1 e2 ih1 ih2 =>
    intro n k hk cs caps r h
    simp only [matchRE] at h
    exact ih1 n _ (fun cs' x r' h' => ih2 n k hk cs' x r' h') cs caps r h

theorem matchRE_factor :
    ∀ (e : RE) (k : List Char → Caps → Option Caps) (cs : List Char) (caps r : Caps),
      matchRE e cs caps k = some r → ∃ cs' caps', k cs' caps' = some r := by
  intro e
  induction e with
  | lit s =>
    intro k cs caps r h
    simp only [matchRE] at h
    split at h
    · exact ⟨_, _, h⟩
    · simp at h
  | star cls lzy =>
    intro k cs caps r h
    simp only [matchRE] at h
    obtain ⟨i, _, hki⟩ := tryIdxs_eq_some h
    exact ⟨_, _, hki⟩
  | grp m e ih =>
    intro k cs caps r h
    simp only [matchRE] at h
    obtain ⟨cs', caps', hk⟩ := ih _ cs caps r h
    exact ⟨cs', _, hk⟩
  | opt e ih =>
    intro k cs caps r h
    simp only [matchRE] at h
    rcases mOr_eq_some h with h1 | ⟨_, h2⟩
    · exact ih k cs caps r h1
    · exact ⟨_, _, h2⟩
  | seq e1 e2 ih1 ih2 =>
    intro k cs caps r h
    simp only [matchRE] at h
    obtain ⟨cs', caps', hk⟩ := ih1 _ cs caps r h
    exact ih2 k cs' caps' r hk

/-- Syntactic criterion on a pattern guaranteeing that every successful match
records capture group `n`: a capture group itself, an optional capture group
around a single-class star (which, matching the empty string, is always
preferred over skipping the group), or a sequence one of whose parts
guarantees it. -/
inductive Binds : RE → Nat → Prop where
  | grp (n : Nat) (e : RE) : Binds (.grp n e) n
  | optGrpStar (n : Nat) (cls : Cls) (lzy : Bool) :
      Binds (.opt (.grp n (.star cls lzy))) n
  | seqL {a : RE} (b : RE) {n : Nat} : Binds a n → Binds (.seq a b) n
  | seqR (a : RE) {b : RE} {n : Nat} : Binds b n → Binds (.seq a b) n

theorem binds_sound {e : RE} {n : Nat} (hb : Binds e n) :
    ∀ (k : List Char → Caps → Option Caps), KIndep k → KMono k →
      ∀ (cs : List Char) (caps r : Caps), matchRE e cs caps k = some r →
        n ∈ r.map Prod.fst := by
  induction hb with
  | grp n e =>
    intro k _ hmono cs caps r h
    simp only [matchRE] at h
    refine matchRE_out e n _ (fun cs' x r' h' => hmono _ _ _ h' n ?_) cs caps r h
    simp
  | optGrpStar n cls lzy =>
    intro k hind hmono cs caps r h
    simp only [matchRE] at h
    rcases mOr_eq_some h with h1 | ⟨h1, h2⟩
    · obtain ⟨i, _, hki⟩ := tryIdxs_eq_some h1
      exact hmono _ _ _ hki n (by simp)
    · exfalso
      rw [tryIdxs_eq_none] at h1
      have h0 := h1 0 (zero_mem_starIdxs lzy _)
      rw [List.drop_zero] at h0
      have : k cs caps = none := (hind cs _ caps).mp h0
      rw [this] at h2
      exact Option.noConfusion h2
  | seqL b hab ih =>
    intro k hind hmono cs caps r h
    simp only [matchRE] at h
    exact ih _ (fun cs' x y => matchRE_none_indep b k hind cs' x y)
      (fun cs' x r' h' => matchRE_keysMono b k hmono cs' x r' h') cs caps r h
  | seqR a hab ih =>
    intro k hind hmono cs caps r h
    simp only [matchRE] at h
    obtain ⟨cs', caps', hk⟩ := matchRE_factor a _ cs caps r h
    exact ih k hind hmono cs' caps' r hk

theorem searchRE_binds {e : RE} {n : Nat} (hb : Binds e n) :
    ∀ (cs : List Char) (caps : Caps), searchRE e cs = some caps →
      n ∈ caps.map Prod.fst := by
  have hind : KIndep (fun _ caps => some caps) := by
    intro cs a b; simp
  have hmono : KMono (fun _ caps => some caps) := by
    intro cs a r h n' hn
    cases h
    exact hn
  intro cs
  induction cs with
  | nil =>
    intro caps h
    simp only [searchRE] at h
    split at h
    next heq =>
      cases h
      exact binds_sound hb _ hind hmono _ _ _ heq
    next => simp at h
  | cons c rest ih =>
    intro caps h
    simp only [searchRE] at h
    split at h
    next heq =>
      cases h
      exact binds_sound hb _ hind hmono _ _ _ heq
    next => exact ih caps h

/-! ## Association-list lookup lemmas -/

theorem lookup_isSome_of_mem {α β : Type} [BEq α] [LawfulBEq α]
    {l : List (α × β)} {n : α} (h : n ∈ l.map Prod.fst) :
    ∃ v, l.lookup n = some v := by
  induction l with
  | nil => simp at h
  | cons p t ih =>
    obtain ⟨m, v⟩ := p
    rcases List.mem_cons.mp h with heq | ht
    · exact ⟨v, by simp [List.lookup, heq]⟩
    · by_cases hnm : n = m
      · exact ⟨v, by simp [List.lookup, hnm]⟩
      · have hne : (n == m) = false := beq_eq_false_iff_ne.mpr hnm
        obtain ⟨w, hw⟩ := ih ht
        exact ⟨w, by simp [List.lookup, hne, hw]⟩

theorem lookup_append_of_mem {α β : Type} [BEq α] [LawfulBEq α]
    {l l' : List (α × β)} {k : α} (h : k ∈ l.map Prod.fst) :
    (l ++ l').lookup k = l.lookup k := by
  induction l with
  | nil => simp at h
  | cons p t ih =>
    obtain ⟨m, v⟩ := p
    by_cases hkm : k = m
    · simp [List.lookup, hkm]
    · have hne : (k == m) = false := beq_eq_false_iff_ne.mpr hkm
      have ht : k ∈ t.map Prod.fst := by
        rcases List.mem_cons.mp h with heq | ht
        · exact absurd heq hkm
        · exact ht
      simp [List.lookup, hne, ih ht]

theorem lookup_append_of_not_mem {α β : Type} [BEq α] [LawfulBEq α]
    {l l' : List (α × β)} {k : α} (h : k ∉ l.map Prod.fst) :
    (l ++ l').lookup k = l'.lookup k := by
  induction l with
  | nil => simp
  | cons p t ih =>
    obtain ⟨m, v⟩ := p
    have hkm : k ≠ m := fun heq => h (by simp [heq])
    have hne : (k == m) = false := beq_eq_false_iff_ne.mpr hkm
    have ht : k ∉ t.map Prod.fst := fun hmem => h (by simp [hmem])
    simp [List.lookup, hne, ih ht]

theorem lookup_map_rules (f : Rule → List Char) :
    ∀ (l : List Rule), (l.map (fun r => r.name)).Nodup →
      ∀ r ∈ l, (l.map (fun x => (x.name, f x))).lookup r.name = some (f r) := by
  intro l
  induction l with
  | nil => intro _ r hr; simp at hr
  | cons a t ih =>
    intro hnd r hr
    rcases List.mem_cons.mp hr with rfl | ht
    · simp [List.lookup]
    · rw [List.map_cons, List.nodup_cons] at hnd
      have hna : a.name ∉ t.map (fun r => r.name) := hnd.1
      have hrn : r.name ≠ a.name := by
        intro heq
        exact hna (heq ▸ List.mem_map_of_mem (fun r => r.name) ht)
      have hne : (r.name == a.name) = false := beq_eq_false_iff_ne.mpr hrn
      simp [List.lookup, hne, ih hnd.2 r ht]

/-! ## Binds instances for the catalog patterns -/

theorem binds_seqs {e : RE} {n : Nat} :
    ∀ (l : List RE), e ∈ l → Binds e n → Binds (seqs l) n := by
  intro l
  induction l with
  | nil => intro h; cases h
  | cons a t ih =>
    intro he hb
    rcases List.mem_cons.mp he with rfl | ht
    · exact Binds.seqL _ hb
    · exact Binds.seqR _ (ih ht hb)

theorem bindsWordGrpOpt : Binds wordGrpOpt 1 := Binds.optGrpStar 1 .word false

theorem bindsLazyAnyOpt (n : Nat) : Binds (lazyAnyOpt n) n := Binds.optGrpStar n .dot true

theorem bindsLineGrp (n : Nat) : Binds (lineGrp n) n := Binds.grp n _

theorem bindsLineGrpOpt (n : Nat) : Binds (lineGrpOpt n) n := Binds.optGrpStar n .dot false

/-- A rule is good when every successful search binds group 1, and also
group 2 for a two-group pattern; this rules out the `None.strip()` crash. -/
def GoodRule (r : Rule) : Prop :=
  Binds r.pat 1 ∧ (r.groups > 1 → Binds r.pat 2)

theorem good_cedula : GoodRule ruleCedula :=
  ⟨binds_seqs _ (by simp) bindsWordGrpOpt, fun h => absurd h (by decide)⟩

theorem good_curp : GoodRule ruleCURP :=
  ⟨binds_seqs _ (by simp) bindsWordGrpOpt, fun h => absurd h (by decide)⟩

theorem good_rfc : GoodRule ruleRFC :=
  ⟨binds_seqs _ (by simp) bindsWordGrpOpt, fun h => absurd h (by decide)⟩

theorem good_razon : GoodRule ruleRazonSocial :=
  ⟨binds_seqs _ (by simp) (bindsLineGrpOpt 1), fun h => absurd h (by decide)⟩

theorem good_codigo : GoodRule ruleCodigoPostal :=
  ⟨binds_seqs _ (by simp) (bindsLazyAnyOpt 1), fun h => absurd h (by decide)⟩

theorem good_tipo : GoodRule ruleTipoVialidad :=
  ⟨binds_seqs _ (by simp) (bindsLazyAnyOpt 1), fun h => absurd h (by decide)⟩

theorem good_nombreVialidad : GoodRule ruleNombreVialidad :=
  ⟨binds_seqs _ (by simp) (bindsLazyAnyOpt 1), fun h => absurd h (by decide)⟩

theorem good_numeroExterior : GoodRule ruleNumeroExterior :=
  ⟨binds_seqs _ (by simp) (bindsLineGrpOpt 1), fun h => absurd h (by decide)⟩

theorem good_numeroInterior : GoodRule ruleNumeroInterior :=
  ⟨binds_seqs _ (by simp) (bindsLazyAnyOpt 1), fun h => absurd h (by decide)⟩

theorem good_colonia : GoodRule ruleNombreColonia :=
  ⟨binds_seqs _ (by simp) (bindsLineGrpOpt 1), fun h => absurd h (by decide)⟩

theorem good_localidad : GoodRule ruleNombreLocalidad :=
  ⟨binds_seqs _ (by simp) (bindsLazyAnyOpt 1), fun h => absurd h (by decide)⟩

theorem good_municipio : GoodRule ruleMunicipio :=
  ⟨binds_seqs _ (by simp) (bindsLazyAnyOpt 1), fun _ => binds_seqs _ (by simp) (bindsLazyAnyOpt 2)⟩

theorem good_entidad : GoodRule ruleEntidad :=
  ⟨binds_seqs _ (by simp) (bindsLazyAnyOpt 1), fun h => absurd h (by decide)⟩

theorem good_entreCalle : GoodRule ruleEntreCalle :=
  ⟨binds_seqs _ (by simp) (bindsLazyAnyOpt 1), fun _ => binds_seqs _ (by simp) (bindsLazyAnyOpt 2)⟩

theorem good_ycalle : GoodRule ruleYCalle :=
  ⟨binds_seqs _ (by simp) (bindsLineGrpOpt 1), fun h => absurd h (by decide)⟩

theorem good_fecha : GoodRule ruleFecha :=
  ⟨binds_seqs _ (by simp) (bindsLineGrp 1), fun _ => binds_seqs _ (by simp) (bindsLineGrpOpt 2)⟩

theorem goodPre15 : ∀ r ∈ pre15, GoodRule r ∧ r.name ≠ "Fecha y lugar de emisión" := by
  intro r hr
  simp only [pre15, List.mem_cons, List.not_mem_nil, or_false] at hr
  rcases hr with rfl|rfl|rfl|rfl|rfl|rfl|rfl|rfl|rfl|rfl|rfl|rfl|rfl|rfl|rfl
  exacts [⟨good_cedula, by decide⟩, ⟨good_curp, by decide⟩, ⟨good_rfc, by decide⟩,
    ⟨good_razon, by decide⟩, ⟨good_codigo, by decide⟩, ⟨good_tipo, by decide⟩,
    ⟨good_nombreVialidad, by decide⟩, ⟨good_numeroExterior, by decide⟩,
    ⟨good_numeroInterior, by decide⟩, ⟨good_colonia, by decide⟩,
    ⟨good_localidad, by decide⟩, ⟨good_municipio, by decide⟩,
    ⟨good_entidad, by decide⟩, ⟨good_entreCalle, by decide⟩,
    ⟨good_ycalle, by decide⟩]

/-! ## Totality of per-rule extraction and the shape of the catalog run -/

theorem mkValue_some {r : Rule} (hg : GoodRule r) {cs : List Char} {caps : Caps}
    (h : searchRE r.pat cs = some caps) : ∃ v, mkValue r.groups caps = some v := by
  by_cases h2 : r.groups > 1
  · obtain ⟨v1, hv1⟩ := lookup_isSome_of_mem (searchRE_binds hg.1 cs caps h)
    obtain ⟨v2, hv2⟩ := lookup_isSome_of_mem (searchRE_binds (hg.2 h2) cs caps h)
    exact ⟨trimL v1 ++ ' ' :: trimL v2, by simp [mkValue, h2, hv1, hv2]⟩
  · obtain ⟨v1, hv1⟩ := lookup_isSome_of_mem (searchRE_binds hg.1 cs caps h)
    exact ⟨trimL v1, by simp [mkValue, h2, hv1]⟩

theorem fieldValue_isSome {r : Rule} (hg : GoodRule r) (cs : List Char) :
    ∃ v, fieldValue r cs = some v := by
  unfold fieldValue
  cases h : searchRE r.pat cs with
  | none => exact ⟨naChars, rfl⟩
  | some caps => exact mkValue_some hg h

theorem runRules_append (l1 l2 : List Rule) (cs : List Char) :
    ∀ acc, runRules (l1 ++ l2) cs acc = (runRules l1 cs acc).bind (fun a => runRules l2 cs a) := by
  induction l1 with
  | nil => intro acc; simp [runRules]
  | cons r t ih =>
    intro acc
    cases hs : searchRE r.pat cs with
    | none => simp only [List.cons_append, runRules, hs]; exact ih _
    | some caps =>
      cases hmv : mkValue r.groups caps with
      | none => simp [List.cons_append, runRules, hs, hmv]
      | some v =>
        by_cases hname : r.name = "Fecha y lugar de emisión"
        · cases hl : List.lookup "RFC" acc with
          | none => simp [List.cons_append, runRules, hs, hmv, hname, hl]
          | some rfc =>
            simp only [List.cons_append, runRules, hs, hmv, hname, if_true, hl]
            exact ih _
        · simp only [List.cons_append, runRules, hs, hmv, if_neg hname]
          exact ih _

theorem runRules_nondate :
    ∀ (l : List Rule), (∀ r ∈ l, GoodRule r ∧ r.name ≠ "Fecha y lugar de emisión") →
      ∀ (cs : List Char) (acc : List (String × List Char)),
        runRules l cs acc = some (acc ++ l.map (fun r => (r.name, fieldVal r cs))) := by
  intro l
  induction l with
  | nil => intro _ cs acc; simp [runRules]
  | cons r t ih =>
    intro h cs acc
    have hr := h r (List.mem_cons_self r t)
    have ht : ∀ x ∈ t, GoodRule x ∧ x.name ≠ "Fecha y lugar de emisión" :=
      fun x hx => h x (List.mem_cons_of_mem r hx)
    cases hs : searchRE r.pat cs with
    | none =>
      have hfv : fieldVal r cs = naChars := by
        simp [fieldVal, fieldValue, hs]
      simp only [runRules, hs, ih ht cs, hfv, List.map_cons]
      simp
    | some caps =>
      obtain ⟨v, hv⟩ := mkValue_some hr.1 hs
      have hfv : fieldVal r cs = v := by
        simp [fieldVal, fieldValue, hs, hv]
      simp only [runRules, hs, hv, if_neg hr.2, ih ht cs, hfv, List.map_cons]
      simp

theorem lookup_pre15Map_rfc (cs : List Char) :
    (pre15Map cs).lookup "RFC" = some (fieldVal ruleRFC cs) :=
  lookup_map_rules (fun r => fieldVal r cs) pre15 (by decide) ruleRFC (by simp [pre15])

/-- The full catalog run on a cleaned text: the 15 independent fields in
order, then the issuance-date entry. -/
theorem extract_run (cs : List Char) :
    runRules catalog cs [] =
      some (pre15Map cs ++ [("Fecha y lugar de emisión", dateEntryVal cs)]) := by
  rw [show catalog = pre15 ++ [ruleFecha] from rfl,
    runRules_append, runRules_nondate pre15 goodPre15 cs []]
  show (some (pre15Map cs)).bind (fun a => runRules [ruleFecha] cs a) = _
  cases hs : searchRE ruleFecha.pat cs with
  | none =>
    simp only [Option.bind, runRules, hs, dateEntryVal]
    rfl
  | some caps =>
    obtain ⟨v, hv⟩ := mkValue_some good_fecha hs
    have hv2 : mkValue 2 caps = some v := hv
    have hname : ruleFecha.name = "Fecha y lugar de emisión" := rfl
    simp only [Option.bind, runRules, hs, hv, hname, if_true, lookup_pre15Map_rfc,
      dateEntryVal, hv2, Option.getD_some]

/-- `extract_fields` never raises, and its result has the explicit shape of
the catalog run on the normalized text. -/
theorem extract_fields_eq (texto : String) :
    extract_fields texto =
      some (pre15Map (normalize texto.data) ++
        [("Fecha y lugar de emisión", dateEntryVal (normalize texto.data))]) :=
  extract_run (normalize texto.data)

/-! ## String-operation lemmas -/

theorem removeAll_nil_left (cs : List Char) : removeAll [] cs = cs := by
  unfold removeAll
  rfl

theorem removeAll_of_none {m cs : List Char} (hm : m ≠ [])
    (h : splitFirst m cs = none) : removeAll m cs = cs := by
  rw [removeAll, if_neg hm, removeAllF_of_none h]

theorem removeAll_of_some {m cs a b : List Char} (hm : m ≠ [])
    (h : splitFirst m cs = some (a, b)) : removeAll m cs = a ++ removeAll m b := by
  have hlen := splitFirst_length h
  have hml : 0 < m.length := by
    cases m with
    | nil => exact absurd rfl hm
    | cons x xs => simp
  rw [removeAll, if_neg hm, removeAll, if_neg hm]
  cases hL : cs.length with
  | zero => omega
  | succ L =>
    simp only [removeAllF, h]
    rw [removeAllF_irrel hm L b.length b (by omega) (by omega)]

theorem splitAll_of_none {m cs : List Char} (hm : m ≠ [])
    (h : splitFirst m cs = none) : splitAll m cs = [cs] := by
  unfold splitAll
  rw [dif_neg hm]
  split
  next => rfl
  next a b h' => rw [h] at h'; cases h'

theorem splitAll_of_some {m cs a b : List Char} (hm : m ≠ [])
    (h : splitFirst m cs = some (a, b)) : splitAll m cs = a :: splitAll m b := by
  conv_lhs => rw [splitAll.eq_def]
  rw [dif_neg hm]
  split
  next h' => rw [h] at h'; cases h'
  next a' b' h' =>
    rw [h] at h'
    cases h'
    rfl

theorem removeSpec_of_none {m cs : List Char} (hm : m ≠ [])
    (h : firstIdx m cs = none) : removeSpec m cs = cs := by
  unfold removeSpec
  rw [dif_neg hm]
  split
  next => rfl
  next i h' => rw [h] at h'; cases h'

theorem removeSpec_of_some {m cs : List Char} {i : Nat} (hm : m ≠ [])
    (h : firstIdx m cs = some i) :
    removeSpec m cs = cs.take i ++ removeSpec m (cs.drop (i + m.length)) := by
  conv_lhs => rw [removeSpec.eq_def]
  rw [dif_neg hm]
  split
  next h' => rw [h] at h'; cases h'
  next i' h' =>
    rw [h] at h'
    cases h'
    rfl

theorem splitFirst_append {m : List Char} :
    ∀ {cs a b : List Char}, splitFirst m cs = some (a, b) → cs = a ++ m ++ b := by
  intro cs
  induction cs with
  | nil =>
    intro a b h
    simp only [splitFirst] at h
    split at h
    next hm =>
      cases h
      simp [List.isEmpty_iff.mp hm]
    next => simp at h
  | cons c rest ih =>
    intro a b h
    simp only [splitFirst] at h
    split at h
    next hp =>
      cases h
      obtain ⟨t, ht⟩ := List.isPrefixOf_iff_prefix.mp hp
      have hd : (c :: rest).drop m.length = t := by
        rw [← ht]; simp [List.drop_left]
      rw [List.nil_append, hd, ← ht]
    next =>
      rw [Option.map_eq_some'] at h
      obtain ⟨⟨a', b'⟩, hrec, heq⟩ := h
      cases heq
      simp [ih hrec]

theorem splitFirst_isSome_append {m : List Char} :
    ∀ (a b : List Char), (splitFirst m (a ++ m ++ b)).isSome = true := by
  intro a
  induction a with
  | nil =>
    intro b
    rw [List.nil_append]
    cases hc : m ++ b with
    | nil =>
      have hm : m = [] := (List.append_eq_nil.mp hc).1
      simp [splitFirst, hm]
    | cons c rest =>
      have hpre : m.isPrefixOf (c :: rest) = true :=
        List.isPrefixOf_iff_prefix.mpr ⟨b, hc⟩
      simp [splitFirst, hpre]
  | cons x a' ih =>
    intro b
    simp only [List.cons_append, splitFirst]
    split
    · simp
    · simpa using ih b

/-- Python's `in` agrees with the existence of a decomposition. -/
theorem containsL_iff {m cs : List Char} :
    containsL m cs = true ↔ ∃ a b, cs = a ++ m ++ b := by
  constructor
  · intro h
    rw [containsL, Option.isSome_iff_exists] at h
    obtain ⟨⟨a, b⟩, hab⟩ := h
    exact ⟨a, b, splitFirst_append hab⟩
  · rintro ⟨a, b, rfl⟩
    exact splitFirst_isSome_append a b

theorem splitFirst_eq_none {m cs : List Char} (h : containsL m cs = false) :
    splitFirst m cs = none := by
  cases hsp : splitFirst m cs with
  | none => rfl
  | some p => rw [containsL, hsp] at h; simp at h

theorem splitHead_id {m cs : List Char} (h : containsL m cs = false) :
    splitHead m cs = cs := by
  rw [splitHead, splitFirst_eq_none h]

theorem removeAll_id {m cs : List Char} (h : containsL m cs = false) :
    removeAll m cs = cs := by
  by_cases hm : m = []
  · exact hm ▸ removeAll_nil_left cs
  · exact removeAll_of_none hm (splitFirst_eq_none h)

theorem firstIdx_minimal {m : List Char} :
    ∀ {cs : List Char} {i : Nat}, firstIdx m cs = some i →
      ∀ j, j < i → m.isPrefixOf (cs.drop j) = false := by
  intro cs
  induction cs with
  | nil =>
    intro i h j hj
    simp only [firstIdx] at h
    split at h
    next =>
      cases h
      exact absurd hj (Nat.not_lt_zero j)
    next => simp at h
  | cons c rest ih =>
    intro i h j hj
    simp only [firstIdx] at h
    split at h
    next =>
      cases h
      exact absurd hj (Nat.not_lt_zero j)
    next hp =>
      rw [Option.map_eq_some'] at h
      obtain ⟨i', hi', rfl⟩ := h
      cases j with
      | zero =>
        rw [List.drop_zero]
        cases hb : m.isPrefixOf (c :: rest) with
        | false => rfl
        | true => exact absurd hb hp
      | succ j' =>
        rw [List.drop_succ_cons]
        exact ih hi' j' (by omega)

theorem splitFirst_firstIdx {m : List Char} :
    ∀ {cs : List Char},
      (splitFirst m cs = none ↔ firstIdx m cs = none) ∧
      (∀ a b, splitFirst m cs = some (a, b) →
        firstIdx m cs = some a.length ∧ a = cs.take a.length ∧
          b = cs.drop (a.length + m.length)) := by
  intro cs
  induction cs with
  | nil =>
    constructor
    · by_cases hm : m.isEmpty <;> simp [splitFirst, firstIdx, hm]
    · intro a b h
      simp only [splitFirst] at h
      split at h
      next hm =>
        cases h
        simp [firstIdx, hm]
      next => simp at h
  | cons c rest ih =>
    constructor
    · simp only [splitFirst, firstIdx]
      split
      next => simp
      next => simp [Option.map_eq_none', ih.1]
    · intro a b h
      simp only [splitFirst] at h
      split at h
      next hp =>
        cases h
        refine ⟨by simp [firstIdx, hp], by simp, by simp⟩
      next hp =>
        rw [Option.map_eq_some'] at h
        obtain ⟨⟨a', b'⟩, hrec, heq⟩ := h
        cases heq
        obtain ⟨h1, h2, h3⟩ := ih.2 a' b' hrec
        refine ⟨?_, ?_, ?_⟩
        · simp [firstIdx, hp, h1]
        · simpa using h2
        · rw [show (c :: a').length + m.length = (a'.length + m.length) + 1 by
            simp [List.length_cons]; omega]
          rw [List.drop_succ_cons]
          exact h3

theorem splitHead_eq_truncFirstSpec (m cs : List Char) :
    splitHead m cs = truncFirstSpec m cs := by
  cases hsp : splitFirst m cs with
  | none =>
    rw [splitHead, hsp, truncFirstSpec, (splitFirst_firstIdx).1.mp hsp]
  | some p =>
    obtain ⟨a, b⟩ := p
    obtain ⟨h1, h2, h3⟩ := (splitFirst_firstIdx).2 a b hsp
    simp only [splitHead, hsp, truncFirstSpec, h1]
    exact h2

theorem removeAll_eq_removeSpec (m cs : List Char) :
    removeAll m cs = removeSpec m cs := by
  by_cases hm : m = []
  · subst hm
    rw [removeAll_nil_left, removeSpec]
    rfl
  · suffices H : ∀ (n : Nat) (cs : List Char), cs.length ≤ n →
        removeAll m cs = removeSpec m cs from H cs.length cs le_rfl
    intro n
    induction n with
    | zero =>
      intro cs hl
      have hnil : cs = [] := List.eq_nil_of_length_eq_zero (Nat.le_zero.mp hl)
      subst hnil
      have hsp : splitFirst m [] = none := by
        simp [splitFirst, List.isEmpty_iff, hm]
      rw [removeAll_of_none hm hsp,
        removeSpec_of_none hm ((splitFirst_firstIdx).1.mp hsp)]
    | succ n ihn =>
      intro cs hl
      cases hsp : splitFirst m cs with
      | none =>
        rw [removeAll_of_none hm hsp,
          removeSpec_of_none hm ((splitFirst_firstIdx).1.mp hsp)]
      | some p =>
        obtain ⟨a, b⟩ := p
        obtain ⟨h1, h2, h3⟩ := (splitFirst_firstIdx).2 a b hsp
        rw [removeAll_of_some hm hsp, removeSpec_of_some hm h1, ← h2, ← h3]
        have hlen := splitFirst_length hsp
        have hml : 0 < m.length := by
          cases m with
          | nil => exact absurd rfl hm
          | cons x xs => simp
        rw [ihn b (by omega)]

theorem removeAll_eq_join (m cs : List Char) (hm : m ≠ []) :
    removeAll m cs = (splitAll m cs).flatten := by
  suffices H : ∀ (n : Nat) (cs : List Char), cs.length ≤ n →
      removeAll m cs = (splitAll m cs).flatten from H cs.length cs le_rfl
  intro n
  induction n with
  | zero =>
    intro cs hl
    have hnil : cs = [] := List.eq_nil_of_length_eq_zero (Nat.le_zero.mp hl)
    subst hnil
    have hsp : splitFirst m [] = none := by
      simp [splitFirst, List.isEmpty_iff, hm]
    rw [removeAll_of_none hm hsp, splitAll_of_none hm hsp]
    simp
  | succ n ihn =>
    intro cs hl
    cases hsp : splitFirst m cs with
    | none =>
      rw [removeAll_of_none hm hsp, splitAll_of_none hm hsp]
      simp
    | some p =>
      obtain ⟨a, b⟩ := p
      have hlen := splitFirst_length hsp
      have hml : 0 < m.length := by
        cases m with
        | nil => exact absurd rfl hm
        | cons x xs => simp
      rw [removeAll_of_some hm hsp, splitAll_of_some hm hsp, List.flatten_cons,
        ihn b (by omega)]

/-- The implementation's normalization coincides with the specification's
wording of it. -/
theorem normalize_eq_normalizeSpec (cs : List Char) :
    normalize cs = normalizeSpec cs := by
  rw [normalize, normalizeSpec, splitHead_eq_truncFirstSpec,
    splitHead_eq_truncFirstSpec, removeAll_eq_removeSpec, removeAll_eq_removeSpec,
    removeAll_eq_removeSpec, removeAll_eq_removeSpec, removeAll_eq_removeSpec]

/-! ## Trim lemmas -/

theorem dropWhile_dropWhile (p : Char → Bool) (l : List Char) :
    List.dropWhile p (List.dropWhile p l) = List.dropWhile p l := by
  induction l with
  | nil => simp
  | cons c t ih =>
    cases hp : p c with
    | true => simpa [List.dropWhile, hp] using ih
    | false => simp [List.dropWhile, hp]

theorem dropWhile_append_singleton (p : Char → Bool) (c : Char) (hc : p c = false) :
    ∀ (u : List Char), List.dropWhile p (u ++ [c]) = List.dropWhile p u ++ [c] := by
  intro u
  induction u with
  | nil => simp [List.dropWhile, hc]
  | cons a u' ih =>
    cases hp : p a with
    | true => simpa [List.dropWhile, hp] using ih
    | false => simp [List.dropWhile, hp]

theorem dropWhile_head_false (p : Char → Bool) :
    ∀ (l : List Char) (c : Char) (t : List Char),
      l.dropWhile p = c :: t → p c = false := by
  intro l
  induction l with
  | nil => intro c t h; simp at h
  | cons a u ih =>
    intro c t h
    cases hp : p a with
    | true =>
      rw [List.dropWhile_cons, if_pos hp] at h
      exact ih c t h
    | false =>
      rw [List.dropWhile_cons, if_neg (by simp [hp])] at h
      cases h
      exact hp

theorem trimL_idem (l : List Char) : trimL (trimL l) = trimL l := by
  cases hl : l.dropWhile isWs with
  | nil =>
    have h1 : trimL l = [] := by simp [trimL, hl]
    rw [h1]
    simp [trimL]
  | cons c t =>
    have hc : isWs c = false := dropWhile_head_false isWs l c t hl
    have hr1 : (l.dropWhile isWs).reverse.dropWhile isWs
        = (t.reverse.dropWhile isWs) ++ [c] := by
      rw [hl, List.reverse_cons]
      exact dropWhile_append_singleton isWs c hc t.reverse
    have htl : trimL l = c :: (t.reverse.dropWhile isWs).reverse := by
      rw [trimL, hr1]
      simp
    have hstep1 : (trimL l).dropWhile isWs = trimL l := by
      rw [htl, List.dropWhile_cons, if_neg (by simp [hc])]
    have hstep2 : (trimL l).reverse = (l.dropWhile isWs).reverse.dropWhile isWs := by
      rw [trimL, List.reverse_reverse]
    conv_lhs => rw [trimL]
    rw [hstep1, hstep2, dropWhile_dropWhile]
    rfl

/-! ## Record and batch lemmas -/

/-- The records the batch produces from named documents whose extraction
succeeds: one per `.pdf`-named fiscal document, in list order. -/
def pdfFiscalRecords (folder : List (String × String)) :
    List (List (String × List Char)) :=
  ((folder.filter (fun p => isPdfName p.1)).filter (fun p => is_fiscal p.2)).map
    (fun p => mkRecord p.1 ((extract_fields p.2).getD []))

theorem filterMap_congr_mem {α β : Type} (f g : α → Option β) :
    ∀ (l : List α), (∀ a ∈ l, f a = g a) → l.filterMap f = l.filterMap g := by
  intro l
  induction l with
  | nil => intro _; simp
  | cons a t ih =>
    intro h
    simp only [List.filterMap_cons]
    rw [h a (List.mem_cons_self a t), ih (fun x hx => h x (List.mem_cons_of_mem a hx))]

theorem filterMap_lookup_self {β : Type} :
    ∀ (l : List (String × β)), (l.map Prod.fst).Nodup →
      (l.map Prod.fst).filterMap (fun k => (l.lookup k).map (fun v => (k, v))) = l := by
  intro l
  induction l with
  | nil => intro _; simp
  | cons p t ih =>
    intro hnd
    obtain ⟨k0, v0⟩ := p
    rw [List.map_cons, List.nodup_cons] at hnd
    have hcong : ∀ k ∈ t.map Prod.fst,
        (List.lookup k ((k0, v0) :: t)).map (fun v => (k, v)) =
          (List.lookup k t).map (fun v => (k, v)) := by
      intro k hk
      have hne : (k == k0) = false := beq_eq_false_iff_ne.mpr (fun heq => hnd.1 (heq ▸ hk))
      simp [List.lookup, hne]
    rw [List.map_cons, List.filterMap_cons]
    have hk0 : (List.lookup k0 ((k0, v0) :: t)).map (fun v => (k0, v)) = some (k0, v0) := by
      simp [List.lookup]
    rw [hk0, filterMap_congr_mem _ _ _ hcong, ih hnd.2]

theorem mkRecord_eq (archivo : String) (fields : List (String × List Char))
    (hkeys : fields.map Prod.fst = catalogNames) :
    mkRecord archivo fields = ("Archivo", archivo.data) :: fields := by
  have hA : "Archivo" ∉ fields.map Prod.fst := by rw [hkeys]; decide
  have hnd : (fields.map Prod.fst).Nodup := by rw [hkeys]; decide
  have hfk : ((fields ++ [("Archivo", archivo.data)]).map Prod.fst).filter
      (fun k => !(k == "Archivo")) = fields.map Prod.fst := by
    rw [List.map_append, List.filter_append]
    have h1 : (fields.map Prod.fst).filter (fun k => !(k == "Archivo")) =
        fields.map Prod.fst := by
      apply List.filter_eq_self.mpr
      intro a ha
      rw [hkeys] at ha
      revert a
      decide
    have h2 : (([("Archivo", archivo.data)] :
        List (String × List Char)).map Prod.fst).filter
        (fun k => !(k == "Archivo")) = [] := by
      simp
    rw [h1, h2, List.append_nil]
  have hlookA : (fields ++ [("Archivo", archivo.data)]).lookup "Archivo" =
      some archivo.data := by
    rw [lookup_append_of_not_mem hA]
    simp [List.lookup]
  have hcong : ∀ k ∈ fields.map Prod.fst,
      ((fields ++ [("Archivo", archivo.data)]).lookup k).map (fun v => (k, v)) =
        (fields.lookup k).map (fun v => (k, v)) := by
    intro k hk
    rw [lookup_append_of_mem hk]
  simp only [mkRecord]
  rw [hfk, List.filterMap_cons, hlookA, filterMap_congr_mem _ _ _ hcong,
    filterMap_lookup_self fields hnd]
  rfl

/-- The key list of every extraction result is the catalog's name list. -/
theorem extract_fields_keys (texto : String) :
    ∀ m, extract_fields texto = some m → m.map Prod.fst = catalogNames := by
  intro m hm
  rw [extract_fields_eq texto] at hm
  cases hm
  rw [List.map_append]
  have h1 : (pre15Map (normalize texto.data)).map Prod.fst =
      pre15.map (fun r => r.name) := by
    simp [pre15Map]
  rw [h1]
  rfl

theorem processFiles_ok :
    ∀ (l : List (String × String)) (acc : List (List (String × List Char))),
      processFiles (l.map (fun p => (⟨p.1, some p.2⟩ : FileEntry))) acc =
        some (acc ++ (l.filter (fun p => is_fiscal p.2)).map
          (fun p => mkRecord p.1 ((extract_fields p.2).getD []))) := by
  intro l
  induction l with
  | nil => intro acc; simp [processFiles]
  | cons p t ih =>
    intro acc
    obtain ⟨nm, tx⟩ := p
    cases hf : is_fiscal tx with
    | true =>
      simp only [List.map_cons, processFiles, hf, if_true, extract_fields_eq tx]
      rw [ih, List.filter_cons_of_pos (by simpa using hf), List.map_cons]
      simp [extract_fields_eq tx, List.append_assoc]
    | false =>
      simp only [List.map_cons, processFiles, hf]
      rw [ih, List.filter_cons_of_neg (by simp [hf]), if_neg (by simp [hf])]

theorem candidates_map_lift (l : List (String × String)) :
    candidates (l.map (fun p => (⟨p.1, some p.2⟩ : FileEntry))) =
      (l.filter (fun p => isPdfName p.1)).map (fun p => (⟨p.1, some p.2⟩ : FileEntry)) := by
  simp only [candidates, List.filter_map]
  rfl

/-! ## Value-shape lemmas -/

theorem pre15Map_keys (cs : List Char) :
    (pre15Map cs).map Prod.fst = pre15.map (fun r => r.name) := by
  simp [pre15Map]

theorem mkValue_two_eq {caps : Caps} {v : List Char} (h : mkValue 2 caps = some v) :
    ∃ g1 g2, caps.lookup 1 = some g1 ∧ caps.lookup 2 = some g2 ∧
      v = trimL g1 ++ ' ' :: trimL g2 := by
  simp only [mkValue] at h
  rw [if_pos (by omega : (2 : Nat) > 1)] at h
  cases h1 : caps.lookup 1 with
  | none =>
    cases h2 : caps.lookup 2 with
    | none => rw [h1, h2] at h; simp at h
    | some g2 => rw [h1, h2] at h; simp at h
  | some g1 =>
    cases h2 : caps.lookup 2 with
    | none => rw [h1, h2] at h; simp at h
    | some g2 =>
      rw [h1, h2] at h
      have hv : trimL g1 ++ ' ' :: trimL g2 = v := by simpa using h
      exact ⟨g1, g2, rfl, rfl, hv.symm⟩

theorem fieldVal_shape (r : Rule) (cs : List Char) :
    fieldVal r cs = naChars ∨ (∃ g, fieldVal r cs = trimL g) ∨
      (∃ g1 g2, fieldVal r cs = trimL g1 ++ ' ' :: trimL g2) := by
  simp only [fieldVal, fieldValue]
  cases hs : searchRE r.pat cs with
  | none => left; rfl
  | some caps =>
    simp only [mkValue]
    by_cases hg : r.groups > 1
    · rw [if_pos hg]
      cases h1 : caps.lookup 1 with
      | none =>
        cases h2 : caps.lookup 2 with
        | none => left; rfl
        | some g2 => left; rfl
      | some g1 =>
        cases h2 : caps.lookup 2 with
        | none => left; rfl
        | some g2 =>
          right; right
          exact ⟨g1, g2, rfl⟩
    · rw [if_neg hg]
      cases h1 : caps.lookup 1 with
      | none => left; rfl
      | some g =>
        right; left
        exact ⟨g, rfl⟩

theorem fieldVal_one_shape (r : Rule) (h1 : ¬ r.groups > 1) (cs : List Char) :
    fieldVal r cs = naChars ∨ ∃ g, fieldVal r cs = trimL g := by
  simp only [fieldVal, fieldValue]
  cases hs : searchRE r.pat cs with
  | none => left; rfl
  | some caps =>
    simp only [mkValue]
    rw [if_neg h1]
    cases hl : caps.lookup 1 with
    | none => left; rfl
    | some g =>
      right
      exact ⟨g, rfl⟩

theorem dateEntry_shape (cs : List Char) :
    dateEntryVal cs = naChars ∨
      ∃ rfc g1 g2, dateEntryVal cs = removeAll rfc (trimL g1 ++ ' ' :: trimL g2) := by
  simp only [dateEntryVal]
  cases hs : searchRE ruleFecha.pat cs with
  | none => left; rfl
  | some caps =>
    obtain ⟨v, hv⟩ := mkValue_some good_fecha hs
    have hv2 : mkValue 2 caps = some v := hv
    obtain ⟨g1, g2, _, _, hveq⟩ := mkValue_two_eq hv2
    right
    refine ⟨fieldVal ruleRFC cs, g1, g2, ?_⟩
    show removeAll (fieldVal ruleRFC cs) ((mkValue 2 caps).getD naChars) =
      removeAll (fieldVal ruleRFC cs) (trimL g1 ++ ' ' :: trimL g2)
    rw [hv2, Option.getD_some, hveq]

/-! ## Claim theorems -/

/-- C1 (counterexample): on the text `"Entre Calle:\nY Calle:\nCURP:\n"`,
`extract_fields` maps `'CURP'` to the empty string (its `([\w]*)?` group
matches the empty word run at end of text) and `'Entre Calle'` to a single
space (two empty captures joined by `' '`), so not every value is `"N/A"` or
a non-empty trimmed string as the claim states. -/
theorem C1_counterexample :
    ((extract_fields "Entre Calle:\nY Calle:\nCURP:\n").bind
      (fun m => m.lookup "CURP") = some []) ∧
    ((extract_fields "Entre Calle:\nY Calle:\nCURP:\n").bind
      (fun m => m.lookup "Entre Calle") = some [' ']) ∧
    (([] : List Char) ≠ naChars) ∧ (trimL [' '] ≠ [' ']) := by decide

/-- C1 (amended): for every string, `extract_fields` succeeds and returns a
map whose key list is exactly the 16 catalog field names in catalog order;
every value is `"N/A"` or built from whitespace-trimmed captures — a single
trimmed (possibly empty) capture, two trimmed captures joined by one space,
or, for the issuance-date field, such a join with RFC occurrences removed.
Values of one-group rules are themselves trimmed (but may be empty); the
two-group join may retain whitespace when a capture is empty. -/
theorem C1_amended : ∀ s : String, ∃ m, extract_fields s = some m ∧
    m.map Prod.fst = catalogNames ∧
    (∀ p ∈ m, p.2 = naChars ∨ (∃ g, p.2 = trimL g) ∨
      (∃ g1 g2, p.2 = trimL g1 ++ ' ' :: trimL g2) ∨
      (∃ rfc g1 g2, p.2 = removeAll rfc (trimL g1 ++ ' ' :: trimL g2))) ∧
    (∀ r ∈ pre15, r.groups = 1 →
      ∃ v, m.lookup r.name = some v ∧ (v = naChars ∨ trimL v = v)) := by
  intro s
  refine ⟨_, extract_fields_eq s, extract_fields_keys s _ (extract_fields_eq s), ?_, ?_⟩
  · intro p hp
    rcases List.mem_append.mp hp with hp1 | hp2
    · obtain ⟨r, hr, hpe⟩ := List.mem_map.mp hp1
      have hval : p.2 = fieldVal r (normalize s.data) := by rw [← hpe]
      rw [hval]
      rcases fieldVal_shape r (normalize s.data) with h | ⟨g, h⟩ | ⟨g1, g2, h⟩
      · exact Or.inl h
      · exact Or.inr (Or.inl ⟨g, h⟩)
      · exact Or.inr (Or.inr (Or.inl ⟨g1, g2, h⟩))
    · rw [List.mem_singleton] at hp2
      have hval : p.2 = dateEntryVal (normalize s.data) := by rw [hp2]
      rw [hval]
      rcases dateEntry_shape (normalize s.data) with h | ⟨rfc, g1, g2, h⟩
      · exact Or.inl h
      · exact Or.inr (Or.inr (Or.inr ⟨rfc, g1, g2, h⟩))
  · intro r hr hg1
    refine ⟨fieldVal r (normalize s.data), ?_, ?_⟩
    · have hmem : r.name ∈ (pre15Map (normalize s.data)).map Prod.fst := by
        rw [pre15Map_keys]
        exact List.mem_map_of_mem _ hr
      rw [lookup_append_of_mem hmem]
      exact lookup_map_rules _ pre15 (by decide) r hr
    · rcases fieldVal_one_shape r (by omega) (normalize s.data) with h | ⟨g, h⟩
      · exact Or.inl h
      · exact Or.inr (by rw [h, trimL_idem])

/-- C1 (witness for the amended theorem at the concrete input `"x"`). -/
theorem C1_amended_witness :
    (extract_fields "x").map (fun m => m.map Prod.fst) = some catalogNames := by
  obtain ⟨m, h1, h2, _, _⟩ := C1_amended "x"
  rw [h1]
  simp [h2]

/-- C2: `is_fiscal s` is true exactly when the marker
`"CONSTANCIA DE SITUACIÓN FISCAL"` occurs as a substring of the raw text,
and it is false on the empty string and on case-changed or truncated
variants of the marker. -/
theorem C2_classifier :
    (∀ s : String, is_fiscal s = true ↔
      ∃ a b : List Char, s.data = a ++ "CONSTANCIA DE SITUACIÓN FISCAL".data ++ b) ∧
    is_fiscal "" = false ∧
    is_fiscal "constancia de situación fiscal" = false ∧
    is_fiscal "CONSTANCIA DE SITUACIÓN FISCA" = false ∧
    is_fiscal "Constancia De Situación Fiscal" = false := by
  refine ⟨fun s => containsL_iff, by decide, by decide, by decide, by decide⟩

/-- C2 (witness): the iff applied at a concrete embedding of the marker. -/
theorem C2_classifier_witness : is_fiscal "xCONSTANCIA DE SITUACIÓN FISCALy" = true :=
  (C2_classifier.1 "xCONSTANCIA DE SITUACIÓN FISCALy").mpr
    ⟨"x".data, "y".data, by decide⟩

/-- C3 (counterexample): on
`"RFC:\nab\nLugar y Fecha de Emisión\naabb"` the RFC resolves to `"ab"`, the
issuance-date match captures `"aabb"` (which literally contains the RFC), and
the final date value is `"ab "` — which still contains the RFC substring,
because the left-to-right removal of `"ab"` from `"aabb "` recombines the
remaining characters into a fresh occurrence. -/
theorem C3_counterexample :
    ((extract_fields "RFC:\nab\nLugar y Fecha de Emisión\naabb").bind
      (fun m => m.lookup "RFC") = some "ab".data) ∧
    ((searchRE ruleFecha.pat
        (normalize "RFC:\nab\nLugar y Fecha de Emisión\naabb".data)).bind
      (fun c => c.lookup 1) = some "aabb".data) ∧
    containsL "ab".data "aabb ".data = true ∧
    ((extract_fields "RFC:\nab\nLugar y Fecha de Emisión\naabb").bind
      (fun m => m.lookup "Fecha y lugar de emisión") = some "ab ".data) ∧
    containsL "ab".data "ab ".data = true := by decide

/-- C3 (amended): whenever the issuance-date pattern matches the cleaned
text, extraction succeeds, the RFC key is present, both capture groups of
the match participate, and the stored date value is the two-group value with
every left-to-right non-overlapping occurrence of the resolved RFC string
(the literal `"N/A"` when the RFC pattern did not match) removed; no error is
raised.  When that value does not contain the RFC string at all — in
particular when RFC is `"N/A"` and the date text has no `"N/A"` substring —
the date value is left unmodified.  The final value may still contain the
RFC substring through recombination (see the counterexample). -/
theorem C3_amended (s : String) (caps : Caps)
    (h : searchRE ruleFecha.pat (normalize s.data) = some caps) :
    ∃ m rfc g1 g2, extract_fields s = some m ∧
      m.lookup "RFC" = some rfc ∧
      caps.lookup 1 = some g1 ∧ caps.lookup 2 = some g2 ∧
      m.lookup "Fecha y lugar de emisión" =
        some (removeAll rfc (trimL g1 ++ ' ' :: trimL g2)) ∧
      (containsL rfc (trimL g1 ++ ' ' :: trimL g2) = false →
        m.lookup "Fecha y lugar de emisión" =
          some (trimL g1 ++ ' ' :: trimL g2)) := by
  obtain ⟨v, hv⟩ := mkValue_some good_fecha h
  have hv2 : mkValue 2 caps = some v := hv
  obtain ⟨g1, g2, hg1, hg2, hveq⟩ := mkValue_two_eq hv2
  have hnm : "Fecha y lugar de emisión" ∉
      (pre15Map (normalize s.data)).map Prod.fst := by
    rw [pre15Map_keys]
    decide
  have hdate : (pre15Map (normalize s.data) ++
      [("Fecha y lugar de emisión", dateEntryVal (normalize s.data))]).lookup
        "Fecha y lugar de emisión" =
      some (removeAll (fieldVal ruleRFC (normalize s.data))
        (trimL g1 ++ ' ' :: trimL g2)) := by
    rw [lookup_append_of_not_mem hnm]
    have hde : dateEntryVal (normalize s.data) =
        removeAll (fieldVal ruleRFC (normalize s.data))
          (trimL g1 ++ ' ' :: trimL g2) := by
      simp only [dateEntryVal, h, hv2, Option.getD_some, hveq]
    simp [List.lookup, hde]
  refine ⟨_, fieldVal ruleRFC (normalize s.data), g1, g2,
    extract_fields_eq s, ?_, hg1, hg2, hdate, ?_⟩
  · have hmem : "RFC" ∈ (pre15Map (normalize s.data)).map Prod.fst := by
      rw [pre15Map_keys]
      decide
    rw [lookup_append_of_mem hmem, lookup_pre15Map_rfc]
  · intro hnc
    rw [hdate, removeAll_id hnc]

/-- C3 (witness for the amended theorem at a concrete matching input). -/
theorem C3_amended_witness :
    ((extract_fields "Lugar y Fecha de Emisión\nHola").bind
      (fun m => m.lookup "Fecha y lugar de emisión")).isSome = true := by
  obtain ⟨m, rfc, g1, g2, h1, _, _, _, h5, _⟩ :=
    C3_amended "Lugar y Fecha de Emisión\nHola" [(2, []), (1, "Hola".data)]
      (by decide)
  rw [h1]
  simp only [Option.bind]
  rw [h5]
  rfl

/-- C4: normalization is the stated composition — truncation at the first
occurrence of `'Actividades Económicas:'`, then truncation at the first
occurrence of the privacy sentence, then deletion of the occurrences of the
five pagination footers — as a total deterministic function: the code-side
pipeline equals the spec-side formulation, truncation is a no-op when the
marker is absent, `firstIdx` really is the first occurrence, and footer
deletion removes exactly the left-to-right occurrences (the concatenation of
the fragments between them). -/
theorem C4_normalize_composition : ∀ cs : List Char,
    normalize cs = normalizeSpec cs ∧
    normalize cs = removeAll footer6 (removeAll footer5 (removeAll footer4
      (removeAll footer3 (removeAll footer2 (splitHead privMarker
        (splitHead actMarker cs)))))) ∧
    (∀ m, containsL m cs = false → splitHead m cs = cs) ∧
    (∀ m i, firstIdx m cs = some i → m.isPrefixOf (cs.drop i) = true ∧
      ∀ j, j < i → m.isPrefixOf (cs.drop j) = false) ∧
    (∀ m, m ≠ [] → removeAll m cs = (splitAll m cs).flatten) := by
  intro cs
  exact ⟨normalize_eq_normalizeSpec cs, rfl,
    fun m h => splitHead_id h,
    fun m i h => ⟨firstIdx_pref h, firstIdx_minimal h⟩,
    fun m h => removeAll_eq_join m cs h⟩

/-- C4 (witness): the composition and fragment-join facts at concrete
inputs. -/
theorem C4_normalize_composition_witness :
    normalize "aPágina  [2] de [2]b".data = normalizeSpec "aPágina  [2] de [2]b".data ∧
    removeAll "ab".data "xabyab".data = (splitAll "ab".data "xabyab".data).flatten :=
  ⟨(C4_normalize_composition "aPágina  [2] de [2]b".data).1,
    (C4_normalize_composition "xabyab".data).2.2.2.2 "ab".data (by decide)⟩

/-- C5 (counterexample): normalization is not idempotent: on
`"ActivPágina  [2] de [2]idades Económicas:X"` the footer removal glues the
section marker together, so the first pass yields
`"Actividades Económicas:X"` and the second pass truncates that to the empty
string. -/
theorem C5_counterexample :
    normalize "ActivPágina  [2] de [2]idades Económicas:X".data =
      "Actividades Económicas:X".data ∧
    normalize (normalize "ActivPágina  [2] de [2]idades Económicas:X".data) = [] ∧
    normalize (normalize "ActivPágina  [2] de [2]idades Económicas:X".data) ≠
      normalize "ActivPágina  [2] de [2]idades Económicas:X".data := by decide

/-- C5 (amended): normalization is idempotent on every string whose first
normalization contains neither truncation marker nor any of the five footer
strings — in particular whenever the first pass does not reassemble a marker. -/
theorem C5_amended (cs : List Char)
    (h1 : containsL actMarker (normalize cs) = false)
    (h2 : containsL privMarker (normalize cs) = false)
    (h3 : containsL footer2 (normalize cs) = false)
    (h4 : containsL footer3 (normalize cs) = false)
    (h5 : containsL footer4 (normalize cs) = false)
    (h6 : containsL footer5 (normalize cs) = false)
    (h7 : containsL footer6 (normalize cs) = false) :
    normalize (normalize cs) = normalize cs := by
  conv_lhs => rw [normalize]
  rw [splitHead_id h1, splitHead_id h2, removeAll_id h3, removeAll_id h4,
    removeAll_id h5, removeAll_id h6, removeAll_id h7]

/-- C5 (witness for the amended theorem at the concrete input `"hola"`). -/
theorem C5_amended_witness :
    normalize (normalize "hola".data) = normalize "hola".data :=
  C5_amended "hola".data (by decide) (by decide) (by decide) (by decide)
    (by decide) (by decide) (by decide)

/-- C6: the batch loop has no exception handling, so a file whose text
extraction fails aborts the whole batch: with a failing `a.pdf` followed by a
valid fiscal `b.pdf` the run produces no result collection at all, while
`b.pdf` alone produces one record.  This contradicts the stated policy that
a failing file merely contributes no record while processing continues. -/
theorem C6_code_evaluation :
    process_pdfs [⟨"a.pdf", none⟩,
      ⟨"b.pdf", some "CONSTANCIA DE SITUACIÓN FISCAL"⟩] = none ∧
    (process_pdfs [⟨"b.pdf", some "CONSTANCIA DE SITUACIÓN FISCAL"⟩]).map
      List.length = some 1 := by decide

/-- C7: for a batch whose extractions all succeed, the result collection is
exactly one record per fiscal `.pdf` document, in the order supplied, and
every record's key list is `'Archivo'` first followed by the 16 catalog
names (hence all records have identical key sets). -/
theorem C7_records : ∀ folder : List (String × String),
    process_pdfs (folder.map (fun p => (⟨p.1, some p.2⟩ : FileEntry))) =
      some (pdfFiscalRecords folder) ∧
    ∀ r ∈ pdfFiscalRecords folder, r.map Prod.fst = "Archivo" :: catalogNames := by
  intro folder
  constructor
  · rw [process_pdfs, candidates_map_lift, processFiles_ok]
    rw [pdfFiscalRecords]
    simp
  · intro r hr
    rw [pdfFiscalRecords] at hr
    obtain ⟨p, hp, rfl⟩ := List.mem_map.mp hr
    have hfields : (extract_fields p.2).getD [] =
        pre15Map (normalize p.2.data) ++
          [("Fecha y lugar de emisión", dateEntryVal (normalize p.2.data))] := by
      rw [extract_fields_eq p.2]
      rfl
    have hk : (pre15Map (normalize p.2.data) ++
        [("Fecha y lugar de emisión",
          dateEntryVal (normalize p.2.data))]).map Prod.fst = catalogNames :=
      extract_fields_keys p.2 _ (extract_fields_eq p.2)
    rw [hfields, mkRecord_eq _ _ hk, List.map_cons, hk]

/-- C7 (witness): the record equation at a concrete two-document batch. -/
theorem C7_records_witness :
    process_pdfs [(⟨"a.pdf", some "CONSTANCIA DE SITUACIÓN FISCAL"⟩ : FileEntry),
      ⟨"b.pdf", some "CONSTANCIA DE SITUACIÓN FISCAL"⟩] =
      some (pdfFiscalRecords [("a.pdf", "CONSTANCIA DE SITUACIÓN FISCAL"),
        ("b.pdf", "CONSTANCIA DE SITUACIÓN FISCAL")]) :=
  (C7_records [("a.pdf", "CONSTANCIA DE SITUACIÓN FISCAL"),
    ("b.pdf", "CONSTANCIA DE SITUACIÓN FISCAL")]).1

/-- C8: field extraction failures are isolated: for every input and every
catalog rule other than the issuance-date rule, the stored value is a
function of the cleaned text and that rule's own pattern alone
(`fieldVal r`), and it is the sentinel `"N/A"` whenever the rule's pattern
has no match in the cleaned text. -/
theorem C8_isolation : ∀ (s : String) (r : Rule), r ∈ pre15 →
    ∃ m, extract_fields s = some m ∧
      m.lookup r.name = some (fieldVal r (normalize s.data)) ∧
      (searchRE r.pat (normalize s.data) = none →
        m.lookup r.name = some naChars) := by
  intro s r hr
  have hlook : (pre15Map (normalize s.data) ++
      [("Fecha y lugar de emisión",
        dateEntryVal (normalize s.data))]).lookup r.name =
      some (fieldVal r (normalize s.data)) := by
    have hmem : r.name ∈ (pre15Map (normalize s.data)).map Prod.fst := by
      rw [pre15Map_keys]
      exact List.mem_map_of_mem _ hr
    rw [lookup_append_of_mem hmem]
    exact lookup_map_rules _ pre15 (by decide) r hr
  refine ⟨_, extract_fields_eq s, hlook, ?_⟩
  intro hs
  rw [hlook]
  have : fieldVal r (normalize s.data) = naChars := by
    simp [fieldVal, fieldValue, hs]
  rw [this]

/-- C8 (witness): the per-field equation at a concrete input and rule. -/
theorem C8_isolation_witness :
    (extract_fields "CURP:\nAB").bind (fun m => m.lookup "CURP") =
      some "AB".data := by
  obtain ⟨m, h1, h2, _⟩ := C8_isolation "CURP:\nAB" ruleCURP (by simp [pre15])
  have h2' : m.lookup "CURP" =
      some (fieldVal ruleCURP (normalize "CURP:\nAB".data)) := h2
  rw [h1]
  simp only [Option.bind]
  rw [h2']
  decide

/-- C9: `'RFC'` precedes `'Fecha y lugar de emisión'` in the catalog's
insertion order, and for every input the accumulated map after the first 15
rules already contains the key `'RFC'`, so the `resultado["RFC"]` lookup in
the issuance-date post-processing never fails and `extract_fields` always
returns a result. -/
theorem C9_rfc_before_date : ∀ s : String,
    catalogNames.indexOf "RFC" <
      catalogNames.indexOf "Fecha y lugar de emisión" ∧
    ((runRules pre15 (normalize s.data) []).bind
      (fun a => a.lookup "RFC")).isSome = true ∧
    (extract_fields s).isSome = true := by
  intro s
  refine ⟨by decide, ?_, ?_⟩
  · rw [runRules_nondate pre15 goodPre15 (normalize s.data) []]
    simp only [List.nil_append, Option.bind]
    rw [show (pre15.map fun r => (r.name, fieldVal r (normalize s.data))) =
      pre15Map (normalize s.data) from rfl, lookup_pre15Map_rfc]
    rfl
  · rw [extract_fields_eq s]
    rfl

/-- C10: a file whose lowercased name does not end in `".pdf"` is invisible
to the batch: inserting it anywhere in the folder changes neither the
candidate list, nor the candidate total used for the progress fraction, nor
the batch result — its content (even a failing one) is never read. -/
theorem C10_pdf_filter (pre post : List FileEntry) (f : FileEntry)
    (h : isPdfName f.name = false) :
    process_pdfs (pre ++ f :: post) = process_pdfs (pre ++ post) ∧
    candidates (pre ++ f :: post) = candidates (pre ++ post) ∧
    candidateTotal (pre ++ f :: post) = candidateTotal (pre ++ post) := by
  have hc : candidates (pre ++ f :: post) = candidates (pre ++ post) := by
    simp [candidates, List.filter_append, List.filter_cons, h]
  exact ⟨by rw [process_pdfs, hc, process_pdfs],
    hc, by rw [candidateTotal, hc, candidateTotal]⟩

/-- C10 (witness): a `.txt` file with failing content does not change the
result of a concrete batch. -/
theorem C10_pdf_filter_witness :
    process_pdfs [(⟨"a.pdf", some "CONSTANCIA DE SITUACIÓN FISCAL"⟩ : FileEntry),
      ⟨"notes.txt", none⟩] =
      process_pdfs [(⟨"a.pdf", some "CONSTANCIA DE SITUACIÓN FISCAL"⟩ : FileEntry)] :=
  (C10_pdf_filter [⟨"a.pdf", some "CONSTANCIA DE SITUACIÓN FISCAL"⟩] []
    ⟨"notes.txt", none⟩ (by decide)).1

end DomPDF
